import Mathlib

/-!
Verification of the Minesweeper core (`src/utils/gameLogic.ts`) of the
SmartMinesweeper repository: board generator, flood fill, logical solver
(`isSolvable`), and hint finder (`findHint`), shallowly embedded in Lean.

Mutable JS arrays are modelled as lists of lists with explicit state
passing; the solver's mutable pair (board, solver shadow state) is threaded
as an explicit `Board × Solved` value.  Recursive functions and `while`
loops are given explicit fuel; the fuel bounds chosen match the structural
termination arguments of the source (each productive flood-fill call
reveals one new cell; each productive solver pass flags or reveals at
least one new cell).
-/

/-- List read with default, modelling JS `a[i]` (with a default in place of
`undefined`; every dereference in the source is bounds-guarded). -/
def lget {α : Type} (d : α) : List α → Nat → α
  | [], _ => d
  | a :: _, 0 => a
  | _ :: l, n + 1 => lget d l n

/-- List write, modelling JS `a[i] = v`; out-of-range writes are dropped. -/
def lset {α : Type} : List α → Nat → α → List α
  | [], _, _ => []
  | _ :: l, 0, a => a :: l
  | b :: l, n + 1, a => b :: lset l n a

/-- Cell data, mirroring `CellData` of `src/types.ts` (the optional
transient hint annotation is UI-only and not read by the core). -/
structure Cell where
  x : Nat
  y : Nat
  isMine : Bool
  isRevealed : Bool
  isFlagged : Bool
  neighborCount : Nat
  deriving DecidableEq, Repr

def defaultCell : Cell := ⟨0, 0, false, false, false, 0⟩

/-- `Board` = `CellData[][]` of the source. -/
abbrev Board := List (List Cell)

def rowsOf (b : Board) : Nat := b.length

/-- `board[0].length` of the source. -/
def colsOf (b : Board) : Nat := (lget [] b 0).length

def rowLen (b : Board) (r : Nat) : Nat := (lget [] b r).length

/-- JS `board[r][c]`. -/
def cellAt (b : Board) (r c : Nat) : Cell := lget defaultCell (lget [] b r) c

/-- JS `board[r][c].f = v`, as a functional cell update. -/
def updCell (b : Board) (r c : Nat) (g : Cell → Cell) : Board :=
  lset b r (lset (lget [] b r) c (g (cellAt b r c)))

/-- Per-cell solver shadow state: `{ revealed, flagged }` built inside
`isSolvable` (`gameLogic.ts` lines 12-15). -/
structure SCell where
  revealed : Bool
  flagged : Bool
  deriving DecidableEq, Repr

def defaultSCell : SCell := ⟨false, false⟩

/-- The SolverState: a parallel array of `SCell`, indexed like the grid. -/
abbrev Solved := List (List SCell)

def sAt (s : Solved) (r c : Nat) : SCell := lget defaultSCell (lget [] s r) c

def updS (s : Solved) (r c : Nat) (g : SCell → SCell) : Solved :=
  lset s r (lset (lget [] s r) c (g (sAt s r c)))

/-- `solved = board.map(row => row.map(cell => ({ revealed: cell.isRevealed,
flagged: false })))` (lines 12-15). -/
def initSolved (b : Board) : Solved :=
  b.map (fun row => row.map (fun c => ⟨c.isRevealed, false⟩))

/-- The nine `(i, j)` offsets of the source's nested `for i, for j` loops,
in iteration order. -/
def offs9 : List (Int × Int) :=
  [(-1, -1), (-1, 0), (-1, 1), (0, -1), (0, 0), (0, 1), (1, -1), (1, 0), (1, 1)]

/-- `getNeighbors(r, c, rows, cols)` (lines 64-75): the in-bounds Moore
neighbors, excluding the cell itself, in loop order. -/
def getNeighbors (r c rows cols : Nat) : List (Nat × Nat) :=
  offs9.filterMap (fun ij =>
    let nr : Int := (r : Int) + ij.1
    let nc : Int := (c : Int) + ij.2
    if 0 ≤ nr ∧ nr < (rows : Int) ∧ 0 ≤ nc ∧ nc < (cols : Int) ∧
        ¬(ij.1 = 0 ∧ ij.2 = 0) then
      some (nr.toNat, nc.toNat)
    else none)

/-- Row-major cell coordinates, the order of every `for r, for c` scan. -/
def rowMajor (rows cols : Nat) : List (Nat × Nat) :=
  (List.range rows).flatMap (fun r => (List.range cols).map (fun c => (r, c)))

/-- The solver's inner `reveal(x, y)` closure (lines 17-27): flood-fill
expansion against the SolverState.  The board is threaded through as the
first component of the state and is only read (`neighborCount`); the fuel
bounds the recursion depth (each productive call reveals one new cell, so
`rows * cols + 1` suffices for any real run). -/
def revealCell (rows cols : Nat) : Nat → Board × Solved → Int → Int → Board × Solved
  | 0, st, _, _ => st
  | fuel + 1, (b, s), x, y =>
    if x < 0 ∨ (rows : Int) ≤ x ∨ y < 0 ∨ (cols : Int) ≤ y ∨
        (sAt s x.toNat y.toNat).revealed then (b, s)
    else
      let s1 := updS s x.toNat y.toNat (fun sc => { sc with revealed := true })
      if (cellAt b x.toNat y.toNat).neighborCount = 0 then
        offs9.foldl (fun st ij => revealCell rows cols fuel st (x + ij.1) (y + ij.2))
          (b, s1)
      else (b, s1)

/-- The body of the solver's fixed-point scan for one cell `(r, c)`
(lines 36-51), threading the state together with the `progress` flag. -/
def passCell (rows cols rfuel : Nat) (acc : (Board × Solved) × Bool)
    (rc : Nat × Nat) : (Board × Solved) × Bool :=
  let b := acc.1.1
  let s := acc.1.2
  let prog := acc.2
  let r := rc.1
  let c := rc.2
  if ¬(sAt s r c).revealed ∨ (cellAt b r c).neighborCount = 0 then acc
  else
    let ns := getNeighbors r c rows cols
    let hidden := ns.filter (fun n => !(sAt s n.1 n.2).revealed)
    let flaggedCount := (ns.filter (fun n => (sAt s n.1 n.2).flagged)).length
    let uh := hidden.filter (fun n => !(sAt s n.1 n.2).flagged)
    let fire1 : Prop :=
      (cellAt b r c).neighborCount = flaggedCount + uh.length ∧ 0 < uh.length
    let s1 := if fire1 then
        uh.foldl (fun a n => updS a n.1 n.2 (fun sc => { sc with flagged := true })) s
      else s
    let prog1 := if fire1 then true else prog
    let fire2 : Prop := (cellAt b r c).neighborCount = flaggedCount ∧ 0 < uh.length
    let st2 := if fire2 then
        uh.foldl (fun st n => revealCell rows cols rfuel st (n.1 : Int) (n.2 : Int))
          (b, s1)
      else (b, s1)
    let prog2 := if fire2 then true else prog1
    (st2, prog2)

/-- The `while (progress)` fixed-point loop (lines 30-54), with fuel: every
pass that makes progress flags or reveals at least one new cell, so
`2 * rows * cols + 1` passes suffice for any real run. -/
def solveLoop (rows cols rfuel : Nat) : Nat → Board × Solved → Board × Solved
  | 0, st => st
  | fuel + 1, st =>
    let res := (rowMajor rows cols).foldl (passCell rows cols rfuel) (st, false)
    if res.2 then solveLoop rows cols rfuel fuel res.1 else res.1

/-- The complete state evolution of `isSolvable` before its final check:
initialize the SolverState, expand at the start cell, iterate to a fixed
point.  Returns the final (board, SolverState) pair. -/
def solveRun (b : Board) (startX startY : Nat) : Board × Solved :=
  let rows := rowsOf b
  let cols := colsOf b
  let rfuel := rows * cols + 1
  solveLoop rows cols rfuel (2 * (rows * cols) + 1)
    (revealCell rows cols rfuel (b, initSolved b) (startX : Int) (startY : Int))

/-- `isSolvable(board, startX, startY)` (lines 9-62): true iff after the
deduction fixed point every non-mine cell is revealed in the SolverState. -/
def isSolvable (b : Board) (startX startY : Nat) : Bool :=
  let rows := rowsOf b
  let cols := colsOf b
  let st := solveRun b startX startY
  (rowMajor rows cols).all (fun rc =>
    (cellAt st.1 rc.1 rc.2).isMine || (sAt st.2 rc.1 rc.2).revealed)

/-- Hint kind, `'SAFE' | 'MINE'`. -/
inductive HintType where
  | SAFE : HintType
  | MINE : HintType
  deriving DecidableEq, Repr

/-- `findHint`'s result record `{ x, y, type }`. -/
structure Hint where
  x : Nat
  y : Nat
  type : HintType
  deriving DecidableEq, Repr

/-- The body of `findHint`'s scan at one cell (lines 86-103): `none` means
the loop continues. -/
def hintAt (b : Board) (rows cols : Nat) (rc : Nat × Nat) : Option Hint :=
  let r := rc.1
  let c := rc.2
  if ¬(cellAt b r c).isRevealed ∨ (cellAt b r c).neighborCount = 0 then none
  else
    let ns := getNeighbors r c rows cols
    let hidden := ns.filter (fun n => !(cellAt b n.1 n.2).isRevealed)
    let flaggedCount := (ns.filter (fun n => (cellAt b n.1 n.2).isFlagged)).length
    let uh := hidden.filter (fun n => !(cellAt b n.1 n.2).isFlagged)
    match uh with
    | [] => none
    | n0 :: rest =>
      if (cellAt b r c).neighborCount = flaggedCount + (n0 :: rest).length then
        some ⟨n0.1, n0.2, HintType.MINE⟩
      else if (cellAt b r c).neighborCount = flaggedCount then
        some ⟨n0.1, n0.2, HintType.SAFE⟩
      else none

/-- `findHint(board)` (lines 80-107): first deducible move in row-major
order, else `none`. -/
def findHint (b : Board) : Option Hint :=
  (rowMajor (rowsOf b) (colsOf b)).findSome? (hintAt b (rowsOf b) (colsOf b))

/-- `createEmptyBoard(rows, cols)` (lines 109-115). -/
def createEmptyBoard (rows cols : Nat) : Board :=
  (List.range rows).map (fun x =>
    (List.range cols).map (fun y => ⟨x, y, false, false, false, 0⟩))

/-- The mine-neighbor count computed at `(r, c)` by the generator's count
loop (lines 138-144): all nine offsets are probed, bounds-checked, and
mine-tested (the center cell is a non-mine wherever this is used). -/
def mineCountAt (b : Board) (r c rows cols : Nat) : Nat :=
  (offs9.filter (fun ij =>
    let nr : Int := (r : Int) + ij.1
    let nc : Int := (c : Int) + ij.2
    decide (0 ≤ nr ∧ nr < (rows : Int) ∧ 0 ≤ nc ∧ nc < (cols : Int)) &&
      (cellAt b nr.toNat nc.toNat).isMine)).length

/-- The generator's neighbor-count pass (lines 135-147): every non-mine
cell's `neighborCount` is set to its mine-neighbor count, in row-major
order over the board being updated. -/
def computeCounts (b : Board) : Board :=
  let rows := rowsOf b
  let cols := colsOf b
  (rowMajor rows cols).foldl (fun acc rc =>
    if (cellAt acc rc.1 rc.2).isMine then acc
    else updCell acc rc.1 rc.2
      (fun cl => { cl with neighborCount := mineCountAt acc rc.1 rc.2 rows cols }))
    b

/-- The mine-placement `while (placed < mines)` loop (lines 125-133).
Randomness is modelled by an injected draw stream `rng`: the `k`-th
iteration's two `Math.random()` draws give the pair `rng k`, reduced
modulo `rows` / `cols` exactly as `Math.floor(Math.random() * n)` lands in
`[0, n)`.  The loop need not terminate for adversarial streams, so it
carries fuel; `none` models a run that exceeds it. -/
def placeMines (rows cols mines startX startY : Nat) (rng : Nat → Nat × Nat) :
    Nat → Board → Nat → Nat → Option (Board × Nat)
  | 0, b, placed, k => if mines ≤ placed then some (b, k) else none
  | fuel + 1, b, placed, k =>
    if mines ≤ placed then some (b, k)
    else
      let rx := (rng k).1 % rows
      let ry := (rng k).2 % cols
      let isNearStart : Prop :=
        ((rx : Int) - (startX : Int)).natAbs ≤ 1 ∧
          ((ry : Int) - (startY : Int)).natAbs ≤ 1
      if (cellAt b rx ry).isMine = false ∧ ¬isNearStart then
        placeMines rows cols mines startX startY rng fuel
          (updCell b rx ry (fun c => { c with isMine := true })) (placed + 1) (k + 1)
      else placeMines rows cols mines startX startY rng fuel b placed (k + 1)

/-- One generation attempt (lines 123-147): fresh empty board, mine
placement, neighbor counts.  Returns the candidate and the next rng index. -/
def attemptOnce (rows cols mines startX startY : Nat) (rng : Nat → Nat × Nat)
    (pfuel k : Nat) : Option (Board × Nat) :=
  match placeMines rows cols mines startX startY rng pfuel
      (createEmptyBoard rows cols) 0 k with
  | none => none
  | some (b, k') => some (computeCounts b, k')

/-- The `while (attempts < maxAttempts)` loop of `generateGuaranteedBoard`
(lines 121-150), counting attempts like the source's `attempts` variable:
the extra `Nat` result is the number of attempts consumed. -/
def genLoop (rows cols mines startX startY : Nat) (rng : Nat → Nat × Nat)
    (pfuel : Nat) : Nat → Nat → Nat → Option (Board × Nat)
  | 0, _, used => some (createEmptyBoard rows cols, used)
  | n + 1, k, used =>
    match attemptOnce rows cols mines startX startY rng pfuel k with
    | none => none
    | some (b2, k') =>
      if isSolvable b2 startX startY then some (b2, used + 1)
      else genLoop rows cols mines startX startY rng pfuel n k' (used + 1)

/-- `generateGuaranteedBoard(rows, cols, mines, startX, startY)`
(lines 117-152) with the random stream and placement fuel made explicit;
`maxAttempts = 500`. -/
def generateGuaranteedBoard (rows cols mines startX startY : Nat)
    (rng : Nat → Nat × Nat) (pfuel : Nat) : Option (Board × Nat) :=
  genLoop rows cols mines startX startY rng pfuel 500 0 0

/-- `floodFill(board, x, y)` (lines 154-166) with explicit fuel; each
productive call reveals a new cell, so `rows * cols + 1` suffices. -/
def floodFillF : Nat → Board → Int → Int → Board
  | 0, b, _, _ => b
  | fuel + 1, b, x, y =>
    if x < 0 ∨ (rowsOf b : Int) ≤ x ∨ y < 0 ∨ (colsOf b : Int) ≤ y ∨
        (cellAt b x.toNat y.toNat).isRevealed ∨ (cellAt b x.toNat y.toNat).isFlagged
    then b
    else
      let b1 := updCell b x.toNat y.toNat (fun c => { c with isRevealed := true })
      if (cellAt b1 x.toNat y.toNat).neighborCount = 0 then
        offs9.foldl (fun bb ij => floodFillF fuel bb (x + ij.1) (y + ij.2)) b1
      else b1

def floodFill (b : Board) (x y : Int) : Board :=
  floodFillF (rowsOf b * colsOf b + 1) b x y

/-- Rectangularity of a `rows x cols` grid: every row in range has exactly
`board[0].length` cells.  Grids in the source are created rectangular by
`createEmptyBoard` and stay so. -/
def Rect (b : Board) : Prop := ∀ r, r < rowsOf b → rowLen b r = colsOf b

/-- Forget the `isFlagged` field of every cell.  Two boards agree on every
cell field except `isFlagged` exactly when their images agree. -/
def eraseFlags (b : Board) : Board :=
  b.map (fun row => row.map (fun c => { c with isFlagged := false }))

/-- Total number of mine cells on a board. -/
def countMines (b : Board) : Nat :=
  (b.map (fun row => row.countP (fun c => c.isMine))).sum

/-- The specification-side mine count of the claims: the number of mines
among the in-bounds Moore neighbors of `(r, c)`, excluding the cell
itself. -/
def specNeighborMines (b : Board) (r c rows cols : Nat) : Nat :=
  ((getNeighbors r c rows cols).filter (fun n => (cellAt b n.1 n.2).isMine)).length

/-- Chebyshev distance between two grid coordinates. -/
def chebDist (r c sx sy : Nat) : Nat :=
  max ((r : Int) - (sx : Int)).natAbs ((c : Int) - (sy : Int)).natAbs

/-- A 2 x 3 grid (not produced by the generator; `isSolvable` accepts any
grid) on which the solver's deductions first flag cell (0,1) and then
reveal it through the zero-expansion at (1,2): neighbor counts are chosen
inconsistently with the mine layout, which the solver never validates. -/
def cexB : Board :=
  [[⟨0, 0, false, true, false, 1⟩, ⟨0, 1, true, false, false, 5⟩,
    ⟨0, 2, false, true, false, 1⟩],
   [⟨1, 0, false, true, false, 1⟩, ⟨1, 1, false, true, false, 1⟩,
    ⟨1, 2, false, false, false, 0⟩]]

/-- The SolverState of the `isSolvable cexB 0 0` run just after the first
fixed-point pass has processed cells (0,0) and (0,1): the mine-rule at
(0,0) has flagged (0,1), which is still unrevealed. -/
def sMid : Solved :=
  (([(0, 0), (0, 1)] : List (Nat × Nat)).foldl (passCell 2 3 7)
    ((cexB, initSolved cexB), false)).1.2

/-- The 1 x 3 concrete scenario grid of the spec:
`[mine=false,count=1][mine=true][mine=false,count=1]`, only (0,0)
revealed, no flags. -/
def grid13 : Board :=
  [[⟨0, 0, false, true, false, 1⟩, ⟨0, 1, true, false, false, 0⟩,
    ⟨0, 2, false, false, false, 1⟩]]

/-- A 1 x 1 grid with one unrevealed, unflagged cell. -/
def oneCellB : Board := [[⟨0, 0, false, false, false, 0⟩]]

/-- A concrete draw stream: every placement draw is `(0, 10)`. -/
def rngEx : Nat → Nat × Nat := fun _ => (0, 10)

/-- The board generated by `generateGuaranteedBoard 1 11 1 0 0 rngEx 2`:
a 1 x 11 strip whose single mine lands at (0, 10). -/
def genExB : Board :=
  match generateGuaranteedBoard 1 11 1 0 0 rngEx 2 with
  | some (g, _) => g
  | none => []


theorem length_lset {α : Type} (l : List α) (n : Nat) (a : α) :
    (lset l n a).length = l.length := by
  induction l generalizing n with
  | nil => rfl
  | cons b l ih => cases n with
    | zero => rfl
    | succ m => simp [lset, ih]

theorem lget_lset_self {α : Type} (d : α) (l : List α) (n : Nat) (a : α)
    (h : n < l.length) : lget d (lset l n a) n = a := by
  induction l generalizing n with
  | nil => simp at h
  | cons b l ih => cases n with
    | zero => rfl
    | succ m =>
      simp only [List.length_cons] at h
      exact ih m (by omega)

theorem lget_lset_ne {α : Type} (d : α) (l : List α) (n m : Nat) (a : α)
    (h : m ≠ n) : lget d (lset l n a) m = lget d l m := by
  induction l generalizing n m with
  | nil => rfl
  | cons b l ih => cases n with
    | zero => cases m with
      | zero => exact absurd rfl h
      | succ k => rfl
    | succ k => cases m with
      | zero => rfl
      | succ j => exact ih k j (by omega)

theorem lset_oob {α : Type} (l : List α) (n : Nat) (a : α)
    (h : l.length ≤ n) : lset l n a = l := by
  induction l generalizing n with
  | nil => rfl
  | cons b l ih => cases n with
    | zero => simp at h
    | succ m =>
      simp only [List.length_cons] at h
      simp [lset, ih m (by omega)]

theorem lset_lget_self {α : Type} (d : α) (l : List α) (n : Nat) :
    lset l n (lget d l n) = l := by
  induction l generalizing n with
  | nil => rfl
  | cons b l ih => cases n with
    | zero => rfl
    | succ m => simp [lset, lget, ih]

theorem lget_eq_getElem? {α : Type} (d : α) (l : List α) (n : Nat) :
    lget d l n = l[n]?.getD d := by
  induction l generalizing n with
  | nil => rfl
  | cons b l ih => cases n with
    | zero => simp [lget]
    | succ m => simpa [lget] using ih m

/-- A left fold preserves any property each step preserves. -/
theorem foldl_preserves {α γ : Type} (P : α → Prop) (g : α → γ → α)
    (l : List γ) (hstep : ∀ a c, c ∈ l → P a → P (g a c)) (a : α) (ha : P a) :
    P (l.foldl g a) := by
  induction l generalizing a with
  | nil => exact ha
  | cons c l ih =>
    exact ih (fun a' c' hc' => hstep a' c' (List.mem_cons_of_mem _ hc'))
      (g a c) (hstep a c (List.mem_cons_self _ _) ha)

/-- Two left folds over the same list preserve a binary relation that each
pair of steps preserves. -/
theorem foldl_rel {α β γ : Type} (R : α → β → Prop) (g : α → γ → α)
    (g' : β → γ → β) (l : List γ)
    (hstep : ∀ a b c, c ∈ l → R a b → R (g a c) (g' b c)) (a : α) (b : β)
    (hab : R a b) : R (l.foldl g a) (l.foldl g' b) := by
  induction l generalizing a b with
  | nil => exact hab
  | cons c l ih =>
    exact ih (fun a' b' c' hc' => hstep a' b' c' (List.mem_cons_of_mem _ hc'))
      (g a c) (g' b c) (hstep a b c (List.mem_cons_self _ _) hab)

theorem rowsOf_updCell (b : Board) (r c : Nat) (g : Cell → Cell) :
    rowsOf (updCell b r c g) = rowsOf b := by
  simp [rowsOf, updCell, length_lset]

theorem rowLen_updCell (b : Board) (r c r' : Nat) (g : Cell → Cell) :
    rowLen (updCell b r c g) r' = rowLen b r' := by
  unfold rowLen updCell
  rcases eq_or_ne r' r with h | h
  · rw [h]
    rcases Nat.lt_or_ge r (rowsOf b) with hr | hr
    · rw [lget_lset_self _ _ _ _ hr, length_lset]
    · rw [lset_oob _ _ _ hr]
  · rw [lget_lset_ne _ _ _ _ _ h]

theorem colsOf_updCell (b : Board) (r c : Nat) (g : Cell → Cell) :
    colsOf (updCell b r c g) = colsOf b :=
  rowLen_updCell b r c 0 g

theorem cellAt_updCell_self (b : Board) (r c : Nat) (g : Cell → Cell)
    (hr : r < rowsOf b) (hc : c < rowLen b r) :
    cellAt (updCell b r c g) r c = g (cellAt b r c) := by
  show lget defaultCell (lget [] (lset b r _) r) c = _
  rw [lget_lset_self _ _ _ _ hr, lget_lset_self _ _ _ _ hc]

theorem cellAt_updCell_ne (b : Board) (r c r' c' : Nat) (g : Cell → Cell)
    (h : r' ≠ r ∨ c' ≠ c) :
    cellAt (updCell b r c g) r' c' = cellAt b r' c' := by
  unfold cellAt updCell
  rcases eq_or_ne r' r with hr | hr
  · rw [hr]
    rcases h with h | h
    · exact absurd hr h
    · rcases Nat.lt_or_ge r (rowsOf b) with hrb | hrb
      · rw [lget_lset_self _ _ _ _ hrb, lget_lset_ne _ _ _ _ _ h]
      · rw [lset_oob _ _ _ hrb]
  · rw [lget_lset_ne _ _ _ _ _ hr]

theorem cellAt_updCell_oob (b : Board) (r c : Nat) (g : Cell → Cell)
    (h : ¬(r < rowsOf b ∧ c < rowLen b r)) : updCell b r c g = b := by
  unfold updCell
  rcases Nat.lt_or_ge r (rowsOf b) with hrb | hrb
  · have hcb : rowLen b r ≤ c := by
      rcases Nat.lt_or_ge c (rowLen b r) with h' | h'
      · exact absurd ⟨hrb, h'⟩ h
      · exact h'
    rw [lset_oob _ _ _ hcb, lset_lget_self]
  · rw [lset_oob _ _ _ hrb]

theorem cellAt_updCell (b : Board) (r c r' c' : Nat) (g : Cell → Cell) :
    cellAt (updCell b r c g) r' c' =
      if r' = r ∧ c' = c ∧ r < rowsOf b ∧ c < rowLen b r then g (cellAt b r c)
      else cellAt b r' c' := by
  by_cases h : r' = r ∧ c' = c ∧ r < rowsOf b ∧ c < rowLen b r
  · obtain ⟨h1, h2, h3, h4⟩ := h
    rw [if_pos ⟨h1, h2, h3, h4⟩, h1, h2, cellAt_updCell_self _ _ _ _ h3 h4]
  · rw [if_neg h]
    by_cases hr : r' = r
    · by_cases hc : c' = c
      · have hb : ¬(r < rowsOf b ∧ c < rowLen b r) := by tauto
        rw [cellAt_updCell_oob _ _ _ _ hb]
      · exact cellAt_updCell_ne _ _ _ _ _ _ (Or.inr hc)
    · exact cellAt_updCell_ne _ _ _ _ _ _ (Or.inl hr)

theorem lget_oob {α : Type} (d : α) (l : List α) (n : Nat)
    (h : l.length ≤ n) : lget d l n = d := by
  induction l generalizing n with
  | nil => rfl
  | cons b l ih => cases n with
    | zero => simp at h
    | succ m =>
      simp only [List.length_cons] at h
      exact ih m (by omega)

theorem lget_map_total {α β : Type} (f : α → β) (d : α) (l : List α) (n : Nat) :
    lget (f d) (l.map f) n = f (lget d l n) := by
  induction l generalizing n with
  | nil => rfl
  | cons b l ih => cases n with
    | zero => rfl
    | succ m => exact ih m

theorem rowsOf_floodFillF (f : Nat) : ∀ (b : Board) (x y : Int),
    rowsOf (floodFillF f b x y) = rowsOf b := by
  induction f with
  | zero => intro b x y; rfl
  | succ f ih =>
    intro b x y
    simp only [floodFillF]
    split
    · rfl
    · split
      · exact foldl_preserves (fun bb => rowsOf bb = rowsOf b) _ _
          (fun a ij _ ha => (ih a _ _).trans ha) _ (rowsOf_updCell _ _ _ _)
      · exact rowsOf_updCell _ _ _ _

theorem rowLen_floodFillF (f : Nat) : ∀ (b : Board) (x y : Int) (r : Nat),
    rowLen (floodFillF f b x y) r = rowLen b r := by
  induction f with
  | zero => intro b x y r; rfl
  | succ f ih =>
    intro b x y r
    simp only [floodFillF]
    split
    · rfl
    · split
      · exact foldl_preserves (fun bb => rowLen bb r = rowLen b r) _ _
          (fun a ij _ ha => (ih a _ _ r).trans ha) _ (rowLen_updCell _ _ _ _ _)
      · exact rowLen_updCell _ _ _ _ _

theorem colsOf_floodFillF (f : Nat) (b : Board) (x y : Int) :
    colsOf (floodFillF f b x y) = colsOf b :=
  rowLen_floodFillF f b x y 0

theorem floodFillF_mono (f : Nat) : ∀ (b : Board) (x y : Int) (r c : Nat),
    (cellAt b r c).isRevealed = true →
    (cellAt (floodFillF f b x y) r c).isRevealed = true := by
  induction f with
  | zero => intro b x y r c h; exact h
  | succ f ih =>
    intro b x y r c h
    simp only [floodFillF]
    split
    · exact h
    · have h1 : (cellAt (updCell b x.toNat y.toNat
          (fun cl => { cl with isRevealed := true })) r c).isRevealed = true := by
        rw [cellAt_updCell]
        split
        · rfl
        · exact h
      split
      · exact foldl_preserves (fun bb => (cellAt bb r c).isRevealed = true) _ _
          (fun a ij _ ha => ih a _ _ r c ha) _ h1
      · exact h1

theorem floodFillF_sets (f : Nat) (b : Board) (x y : Int) (hrect : Rect b)
    (hx0 : 0 ≤ x) (hxr : x < (rowsOf b : Int)) (hy0 : 0 ≤ y)
    (hyc : y < (colsOf b : Int))
    (hrev : (cellAt b x.toNat y.toNat).isRevealed = false)
    (hflag : (cellAt b x.toNat y.toNat).isFlagged = false) :
    (cellAt (floodFillF (f + 1) b x y) x.toNat y.toNat).isRevealed = true := by
  have hxb : x.toNat < rowsOf b := by omega
  have hyb : y.toNat < rowLen b x.toNat := by
    rw [hrect x.toNat hxb]; omega
  have hg : ¬(x < 0 ∨ (rowsOf b : Int) ≤ x ∨ y < 0 ∨ (colsOf b : Int) ≤ y ∨
      (cellAt b x.toNat y.toNat).isRevealed = true ∨
      (cellAt b x.toNat y.toNat).isFlagged = true) := by
    simp [hrev, hflag]; omega
  have h1 : (cellAt (updCell b x.toNat y.toNat
      (fun cl => { cl with isRevealed := true })) x.toNat y.toNat).isRevealed = true := by
    rw [cellAt_updCell_self _ _ _ _ hxb hyb]
  simp only [floodFillF]
  rw [if_neg hg]
  split
  · exact foldl_preserves (fun bb => (cellAt bb x.toNat y.toNat).isRevealed = true)
      _ _ (fun a ij _ ha => floodFillF_mono f a _ _ _ _ ha) _ h1
  · exact h1

theorem floodFill_guard_noop (b : Board) (x y : Int)
    (h : (x < 0 ∨ (rowsOf b : Int) ≤ x ∨ y < 0 ∨ (colsOf b : Int) ≤ y) ∨
      (cellAt b x.toNat y.toNat).isRevealed = true ∨
      (cellAt b x.toNat y.toNat).isFlagged = true) :
    floodFill b x y = b := by
  unfold floodFill
  simp only [floodFillF]
  rw [if_pos (by tauto)]

/-- C7: `floodFill(grid, x, y)` leaves the grid completely unchanged when
`(x, y)` is out of bounds, or the cell there is already revealed, or the
cell there is flagged. -/
theorem c7_floodFill_noop (b : Board) (x y : Int)
    (h : (x < 0 ∨ (rowsOf b : Int) ≤ x ∨ y < 0 ∨ (colsOf b : Int) ≤ y) ∨
      (cellAt b x.toNat y.toNat).isRevealed = true ∨
      (cellAt b x.toNat y.toNat).isFlagged = true) :
    floodFill b x y = b :=
  floodFill_guard_noop b x y h

/-- Witness for C7 at a concrete input: a 1 x 1 grid whose cell is
already revealed is untouched by `floodFill` at (0, 0). -/
theorem c7_witness :
    ((cellAt [[⟨0, 0, false, true, false, 0⟩]] 0 0).isRevealed = true) ∧
      floodFill [[⟨0, 0, false, true, false, 0⟩]] 0 0 =
        [[⟨0, 0, false, true, false, 0⟩]] :=
  ⟨by decide, c7_floodFill_noop _ 0 0 (Or.inr (Or.inl (by decide)))⟩

/-- C8: `floodFill` is idempotent: on a rectangular grid, flood filling
twice at the same in-bounds coordinate produces exactly the same grid (and
hence the same revealed set) as flood filling once. -/
theorem c8_floodFill_idempotent (b : Board) (x y : Int) (hrect : Rect b)
    (hx0 : 0 ≤ x) (hxr : x < (rowsOf b : Int)) (hy0 : 0 ≤ y)
    (hyc : y < (colsOf b : Int)) :
    floodFill (floodFill b x y) x y = floodFill b x y := by
  by_cases hrev : (cellAt b x.toNat y.toNat).isRevealed = true
  · have h1 : floodFill b x y = b := floodFill_guard_noop _ _ _ (Or.inr (Or.inl hrev))
    rw [h1]
    exact h1
  · by_cases hflag : (cellAt b x.toNat y.toNat).isFlagged = true
    · have h1 : floodFill b x y = b := floodFill_guard_noop _ _ _ (Or.inr (Or.inr hflag))
      rw [h1]
      exact h1
    · have hrev2 : (cellAt (floodFill b x y) x.toNat y.toNat).isRevealed = true := by
        unfold floodFill
        exact floodFillF_sets _ b x y hrect hx0 hxr hy0 hyc
          (Bool.not_eq_true _ ▸ hrev) (Bool.not_eq_true _ ▸ hflag)
      exact floodFill_guard_noop _ _ _ (Or.inr (Or.inl hrev2))

/-- Witness for C8 at a concrete input: the 1 x 1 unrevealed grid. -/
theorem c8_witness :
    (Rect oneCellB ∧ (0 : Int) ≤ 0 ∧ (0 : Int) < (rowsOf oneCellB : Int) ∧
        (0 : Int) < (colsOf oneCellB : Int)) ∧
      floodFill (floodFill oneCellB 0 0) 0 0 = floodFill oneCellB 0 0 :=
  ⟨⟨by unfold Rect; decide, by decide, by decide, by decide⟩,
    c8_floodFill_idempotent oneCellB 0 0 (by unfold Rect; decide) (by decide)
      (by decide) (by decide) (by decide)⟩

theorem revealCell_fst (rows cols : Nat) (f : Nat) : ∀ (st : Board × Solved)
    (x y : Int), (revealCell rows cols f st x y).1 = st.1 := by
  induction f with
  | zero => intro st x y; rfl
  | succ f ih =>
    intro st x y
    obtain ⟨b, s⟩ := st
    simp only [revealCell]
    split
    · rfl
    · split
      · have hp : ∀ (a : Board × Solved), a.1 = b →
            (offs9.foldl (fun st ij =>
              revealCell rows cols f st (x + ij.1) (y + ij.2)) a).1 = b :=
          fun a ha => foldl_preserves (fun p => p.1 = b) _ offs9
            (fun a' ij _ ha' => (ih a' _ _).trans ha') a ha
        exact hp _ rfl
      · rfl

theorem passCell_fst (rows cols rfuel : Nat) (acc : (Board × Solved) × Bool)
    (rc : Nat × Nat) : (passCell rows cols rfuel acc rc).1.1 = acc.1.1 := by
  simp only [passCell]
  split
  · rfl
  · split
    · have hp : ∀ (l : List (Nat × Nat)) (a : Board × Solved), a.1 = acc.1.1 →
          (l.foldl (fun st n =>
            revealCell rows cols rfuel st (n.1 : Int) (n.2 : Int)) a).1 = acc.1.1 :=
        fun l a ha => foldl_preserves (fun p => p.1 = acc.1.1) _ l
          (fun a' n _ ha' => (revealCell_fst rows cols rfuel a' _ _).trans ha') a ha
      exact hp _ _ rfl
    · rfl

theorem solveLoop_fst (rows cols rfuel : Nat) (f : Nat) :
    ∀ st : Board × Solved, (solveLoop rows cols rfuel f st).1 = st.1 := by
  induction f with
  | zero => intro st; rfl
  | succ f ih =>
    intro st
    simp only [solveLoop]
    have hres : (((rowMajor rows cols).foldl (passCell rows cols rfuel)
        (st, false)).1).1 = st.1 :=
      foldl_preserves (fun p => p.1.1 = st.1) _ _
        (fun a rc _ ha => (passCell_fst rows cols rfuel a rc).trans ha) _ rfl
    split
    · exact (ih _).trans hres
    · exact hres

/-- C6: `isSolvable` leaves the grid completely unchanged: threading the
grid through the whole state evolution of the check (initial SolverState,
flood-fill expansion, deduction fixed point) returns it untouched; every
write targets the SolverState component. -/
theorem c6_isSolvable_frame (b : Board) (startX startY : Nat) :
    (solveRun b startX startY).1 = b := by
  unfold solveRun
  exact (solveLoop_fst _ _ _ _ _).trans (revealCell_fst _ _ _ _ _ _)

set_option maxRecDepth 100000 in
/-- C5 counterexample: on the grid `cexB`, during the `isSolvable` check
seeded at (0, 0), the state `sMid` reached after the first pass has
processed cells (0,0) and (0,1) holds cell (0,1) flagged and unrevealed;
the flood-fill-style expansion invoked at (1,2) by the safe-rule at (0,2)
then marks the flagged cell (0,1) revealed, and the run's final
SolverState has (0,1) both flagged and revealed.  So the expansion is not
a no-op on flagged cells, contradicting the claim. -/
theorem c5_counterexample :
    sAt sMid 0 1 = ⟨false, true⟩ ∧
      (sAt (revealCell 2 3 7 (cexB, sMid) 1 2).2 0 1).revealed = true ∧
      sAt (solveRun cexB 0 0).2 0 1 = ⟨true, true⟩ := by
  refine ⟨by decide, by decide, by decide⟩

/-- C5 amended: inside `isSolvable`, the flood-fill-style expansion on the
SolverState is a no-op on out-of-bounds or already-revealed coordinates;
unlike `floodFill` (§4.2) it does NOT guard on flags, so a cell flagged in
the SolverState can be marked revealed by the expansion. -/
theorem c5_amended_reveal_noop (rows cols fuel : Nat) (b : Board) (s : Solved)
    (x y : Int)
    (h : (x < 0 ∨ (rows : Int) ≤ x ∨ y < 0 ∨ (cols : Int) ≤ y) ∨
      (sAt s x.toNat y.toNat).revealed = true) :
    revealCell rows cols fuel (b, s) x y = (b, s) := by
  cases fuel with
  | zero => rfl
  | succ f =>
    simp only [revealCell]
    rw [if_pos (by tauto)]

/-- Witness for the amended C5 at a concrete input: a revealed cell in the
SolverState is left untouched by the expansion. -/
theorem c5_amended_witness :
    ((sAt [[⟨true, false⟩]] 0 0).revealed = true) ∧
      revealCell 1 1 3 (oneCellB, [[⟨true, false⟩]]) 0 0 =
        (oneCellB, [[⟨true, false⟩]]) :=
  ⟨by decide, c5_amended_reveal_noop 1 1 3 oneCellB _ 0 0 (Or.inr (by decide))⟩

theorem findSome?_eq_none_of {α β : Type} (f : α → Option β) (l : List α)
    (h : ∀ a ∈ l, f a = none) : l.findSome? f = none := by
  induction l with
  | nil => rfl
  | cons a l ih =>
    rw [List.findSome?_cons]
    rw [h a (List.mem_cons_self _ _)]
    exact ih (fun a' ha' => h a' (List.mem_cons_of_mem _ ha'))

theorem mem_rowMajor (rows cols : Nat) (rc : Nat × Nat) :
    rc ∈ rowMajor rows cols ↔ rc.1 < rows ∧ rc.2 < cols := by
  obtain ⟨r, c⟩ := rc
  simp [rowMajor, List.mem_flatMap, List.mem_map, List.mem_range]

/-- C4: `findHint` returns `none` whenever no revealed cell has a nonzero
`neighborCount` (in particular on a grid with no revealed cells), and on
the 1 x 3 scenario grid (non-mine count 1, mine, non-mine count 1; only
(0,0) revealed, no flags) it returns the mine move at (0,1).  The
row-major scan order and the mine-rule-before-safe-rule priority are those
of the `findHint` definition. -/
theorem c4_findHint (b : Board)
    (h : ∀ r, r < rowsOf b → ∀ c, c < colsOf b →
      (cellAt b r c).isRevealed = true → (cellAt b r c).neighborCount = 0) :
    findHint b = none ∧ findHint grid13 = some ⟨0, 1, HintType.MINE⟩ := by
  constructor
  · unfold findHint
    apply findSome?_eq_none_of
    intro rc hrc
    rw [mem_rowMajor] at hrc
    unfold hintAt
    rw [if_pos]
    by_cases hrev : (cellAt b rc.1 rc.2).isRevealed = true
    · exact Or.inr (h rc.1 hrc.1 rc.2 hrc.2 hrev)
    · exact Or.inl hrev
  · decide

/-- Witness for C4 at concrete inputs: a 1 x 1 grid with a single hidden
cell (no revealed cells at all) yields no hint, and the scenario grid
yields the mine hint. -/
theorem c4_witness :
    findHint oneCellB = none ∧ findHint grid13 = some ⟨0, 1, HintType.MINE⟩ :=
  c4_findHint oneCellB (by decide)

theorem cellAt_eraseFlags (b : Board) (r c : Nat) :
    cellAt (eraseFlags b) r c = { cellAt b r c with isFlagged := false } := by
  unfold cellAt eraseFlags
  have h1 := lget_map_total
    (List.map (fun cl : Cell => { cl with isFlagged := false })) ([] : List Cell) b r
  simp only [List.map_nil] at h1
  rw [h1]
  have h2 := lget_map_total
    (fun cl : Cell => { cl with isFlagged := false }) defaultCell (lget [] b r) c
  exact h2

theorem rowsOf_eraseFlags (b : Board) : rowsOf (eraseFlags b) = rowsOf b := by
  simp [rowsOf, eraseFlags]

theorem colsOf_eraseFlags (b : Board) : colsOf (eraseFlags b) = colsOf b := by
  unfold colsOf eraseFlags
  have h1 := lget_map_total
    (List.map (fun cl : Cell => { cl with isFlagged := false })) ([] : List Cell) b 0
  simp only [List.map_nil] at h1
  rw [h1, List.length_map]

theorem initSolved_eraseFlags (b : Board) :
    initSolved (eraseFlags b) = initSolved b := by
  simp [initSolved, eraseFlags, List.map_map, Function.comp]

theorem revealCell_snd_congr (rows cols : Nat) (b b' : Board)
    (hcnt : ∀ r c, (cellAt b r c).neighborCount = (cellAt b' r c).neighborCount)
    (f : Nat) : ∀ (s : Solved) (x y : Int),
    (revealCell rows cols f (b, s) x y).2 = (revealCell rows cols f (b', s) x y).2 := by
  induction f with
  | zero => intro s x y; rfl
  | succ f ih =>
    intro s x y
    simp only [revealCell]
    by_cases hg : x < 0 ∨ (rows : Int) ≤ x ∨ y < 0 ∨ (cols : Int) ≤ y ∨
        (sAt s x.toNat y.toNat).revealed = true
    · rw [if_pos hg, if_pos hg]
    · rw [if_neg hg, if_neg hg]
      rw [hcnt x.toNat y.toNat]
      by_cases hc : (cellAt b' x.toNat y.toNat).neighborCount = 0
      · rw [if_pos hc, if_pos hc]
        have hrel : ∀ (l : List (Int × Int)) (p : Board × Solved) (q : Board × Solved),
            p.1 = b → q.1 = b' → p.2 = q.2 →
            (l.foldl (fun st ij =>
                revealCell rows cols f st (x + ij.1) (y + ij.2)) p).1 = b ∧
              (l.foldl (fun st ij =>
                revealCell rows cols f st (x + ij.1) (y + ij.2)) q).1 = b' ∧
              (l.foldl (fun st ij =>
                revealCell rows cols f st (x + ij.1) (y + ij.2)) p).2 =
                (l.foldl (fun st ij =>
                  revealCell rows cols f st (x + ij.1) (y + ij.2)) q).2 := by
          intro l
          induction l with
          | nil => intro p q h1 h2 h3; exact ⟨h1, h2, h3⟩
          | cons ij l ihl =>
            intro p q h1 h2 h3
            obtain ⟨pb, ps⟩ := p
            obtain ⟨qb, qs⟩ := q
            simp only at h1 h2 h3
            subst h1; subst h2; subst h3
            apply ihl
            · exact revealCell_fst rows cols f _ _ _
            · exact revealCell_fst rows cols f _ _ _
            · exact ih ps _ _
        exact (hrel offs9 (b, _) (b', _) rfl rfl rfl).2.2
      · rw [if_neg hc, if_neg hc]

theorem passCell_congr (rows cols rfuel : Nat) (b b' : Board)
    (hcnt : ∀ r c, (cellAt b r c).neighborCount = (cellAt b' r c).neighborCount)
    (s : Solved) (prog : Bool) (rc : Nat × Nat) :
    (passCell rows cols rfuel ((b, s), prog) rc).1.2 =
        (passCell rows cols rfuel ((b', s), prog) rc).1.2 ∧
      (passCell rows cols rfuel ((b, s), prog) rc).2 =
        (passCell rows cols rfuel ((b', s), prog) rc).2 := by
  simp only [passCell]
  rw [hcnt rc.1 rc.2]
  by_cases hg : ¬(sAt s rc.1 rc.2).revealed = true ∨
      (cellAt b' rc.1 rc.2).neighborCount = 0
  · simp only [if_pos hg]
    refine ⟨?_, ?_⟩ <;> trivial
  · simp only [if_neg hg]
    have hrel : ∀ (l : List (Nat × Nat)) (p : Board × Solved) (q : Board × Solved),
        p.1 = b → q.1 = b' → p.2 = q.2 →
        (l.foldl (fun st n =>
            revealCell rows cols rfuel st (n.1 : Int) (n.2 : Int)) p).2 =
          (l.foldl (fun st n =>
            revealCell rows cols rfuel st (n.1 : Int) (n.2 : Int)) q).2 := by
      intro l
      induction l with
      | nil => intro p q h1 h2 h3; exact h3
      | cons n l ihl =>
        intro p q h1 h2 h3
        apply ihl
        · rw [revealCell_fst rows cols rfuel _ _ _]
          exact h1
        · rw [revealCell_fst rows cols rfuel _ _ _]
          exact h2
        · obtain ⟨pb, ps⟩ := p
          obtain ⟨qb, qs⟩ := q
          simp only at h1 h2 h3
          rw [h1, h2, h3]
          exact revealCell_snd_congr rows cols b b' hcnt rfuel qs _ _
    constructor
    · by_cases hf2 : (cellAt b' rc.1 rc.2).neighborCount =
          (List.filter (fun n => (sAt s n.1 n.2).flagged)
            (getNeighbors rc.1 rc.2 rows cols)).length ∧
          0 < (List.filter (fun n => !(sAt s n.1 n.2).flagged)
            (List.filter (fun n => !(sAt s n.1 n.2).revealed)
              (getNeighbors rc.1 rc.2 rows cols))).length
      · simp only [if_pos hf2]
        exact hrel _ (b, _) (b', _) rfl rfl rfl
      · simp only [if_neg hf2]
    · trivial

theorem solveLoop_congr (rows cols rfuel : Nat) (b b' : Board)
    (hcnt : ∀ r c, (cellAt b r c).neighborCount = (cellAt b' r c).neighborCount)
    (f : Nat) : ∀ (p q : Board × Solved), p.1 = b → q.1 = b' → p.2 = q.2 →
    (solveLoop rows cols rfuel f p).2 = (solveLoop rows cols rfuel f q).2 := by
  induction f with
  | zero => intro p q h1 h2 h3; exact h3
  | succ f ih =>
    intro p q h1 h2 h3
    obtain ⟨pb, ps⟩ := p
    obtain ⟨qb, qs⟩ := q
    simp only at h1 h2 h3
    rw [h1, h2, h3]
    simp only [solveLoop]
    have hres : ∀ (l : List (Nat × Nat)) (u v : (Board × Solved) × Bool),
        u.1.1 = b → v.1.1 = b' → u.1.2 = v.1.2 → u.2 = v.2 →
        (l.foldl (passCell rows cols rfuel) u).1.1 = b ∧
          (l.foldl (passCell rows cols rfuel) v).1.1 = b' ∧
          (l.foldl (passCell rows cols rfuel) u).1.2 =
            (l.foldl (passCell rows cols rfuel) v).1.2 ∧
          (l.foldl (passCell rows cols rfuel) u).2 =
            (l.foldl (passCell rows cols rfuel) v).2 := by
      intro l
      induction l with
      | nil => intro u v h1 h2 h3 h4; exact ⟨h1, h2, h3, h4⟩
      | cons rc l ihl =>
        intro u v h1 h2 h3 h4
        apply ihl
        · rw [passCell_fst]; exact h1
        · rw [passCell_fst]; exact h2
        · obtain ⟨⟨ub, us⟩, ug⟩ := u
          obtain ⟨⟨vb, vs⟩, vg⟩ := v
          simp only at h1 h2 h3 h4
          rw [h1, h2, h3, h4]
          exact (passCell_congr rows cols rfuel b b' hcnt vs vg rc).1
        · obtain ⟨⟨ub, us⟩, ug⟩ := u
          obtain ⟨⟨vb, vs⟩, vg⟩ := v
          simp only at h1 h2 h3 h4
          rw [h1, h2, h3, h4]
          exact (passCell_congr rows cols rfuel b b' hcnt vs vg rc).2
    obtain ⟨e1, e2, e3, e4⟩ := hres (rowMajor rows cols) ((b, qs), false)
      ((b', qs), false) rfl rfl rfl rfl
    rw [e4]
    by_cases hcond : ((rowMajor rows cols).foldl (passCell rows cols rfuel)
        ((b', qs), false)).2 = true
    · rw [if_pos hcond, if_pos hcond]
      exact ih _ _ e1 e2 e3
    · rw [if_neg hcond, if_neg hcond]
      exact e3

/-- C9: the result of `isSolvable` does not depend on the grid's real
flags: two grids identical in every cell field except `isFlagged` (their
flag-erasures coincide) get the same verdict for every start coordinate;
the SolverState starts with all flags cleared regardless of the grid's
flags. -/
theorem c9_isSolvable_flag_independent (b b' : Board) (startX startY : Nat)
    (h : eraseFlags b = eraseFlags b') :
    isSolvable b startX startY = isSolvable b' startX startY := by
  have hrows : rowsOf b = rowsOf b' := by
    rw [← rowsOf_eraseFlags b, h, rowsOf_eraseFlags]
  have hcols : colsOf b = colsOf b' := by
    rw [← colsOf_eraseFlags b, h, colsOf_eraseFlags]
  have hcellE : ∀ r c, ({ cellAt b r c with isFlagged := false } : Cell)
      = { cellAt b' r c with isFlagged := false } := by
    intro r c
    rw [← cellAt_eraseFlags, h, cellAt_eraseFlags]
  have hcnt : ∀ r c, (cellAt b r c).neighborCount = (cellAt b' r c).neighborCount := by
    intro r c
    have e := congrArg Cell.neighborCount (hcellE r c)
    simpa using e
  have hmine : ∀ r c, (cellAt b r c).isMine = (cellAt b' r c).isMine := by
    intro r c
    have e := congrArg Cell.isMine (hcellE r c)
    simpa using e
  have hs0 : initSolved b = initSolved b' := by
    rw [← initSolved_eraseFlags b, h, initSolved_eraseFlags]
  simp only [isSolvable, solveRun]
  rw [← hrows, ← hcols, ← hs0]
  have hfstL : (solveLoop (rowsOf b) (colsOf b) (rowsOf b * colsOf b + 1)
      (2 * (rowsOf b * colsOf b) + 1)
      (revealCell (rowsOf b) (colsOf b) (rowsOf b * colsOf b + 1)
        (b, initSolved b) (startX : Int) (startY : Int))).1 = b :=
    (solveLoop_fst _ _ _ _ _).trans (revealCell_fst _ _ _ _ _ _)
  have hfstR : (solveLoop (rowsOf b) (colsOf b) (rowsOf b * colsOf b + 1)
      (2 * (rowsOf b * colsOf b) + 1)
      (revealCell (rowsOf b) (colsOf b) (rowsOf b * colsOf b + 1)
        (b', initSolved b) (startX : Int) (startY : Int))).1 = b' :=
    (solveLoop_fst _ _ _ _ _).trans (revealCell_fst _ _ _ _ _ _)
  have hsnd : (solveLoop (rowsOf b) (colsOf b) (rowsOf b * colsOf b + 1)
      (2 * (rowsOf b * colsOf b) + 1)
      (revealCell (rowsOf b) (colsOf b) (rowsOf b * colsOf b + 1)
        (b, initSolved b) (startX : Int) (startY : Int))).2 =
      (solveLoop (rowsOf b) (colsOf b) (rowsOf b * colsOf b + 1)
        (2 * (rowsOf b * colsOf b) + 1)
        (revealCell (rowsOf b) (colsOf b) (rowsOf b * colsOf b + 1)
          (b', initSolved b) (startX : Int) (startY : Int))).2 :=
    solveLoop_congr _ _ _ b b' hcnt _ _ _
      (revealCell_fst _ _ _ _ _ _) (revealCell_fst _ _ _ _ _ _)
      (revealCell_snd_congr _ _ b b' hcnt _ _ _ _)
  have hfun : (fun rc : Nat × Nat =>
      (cellAt (solveLoop (rowsOf b) (colsOf b) (rowsOf b * colsOf b + 1)
        (2 * (rowsOf b * colsOf b) + 1)
        (revealCell (rowsOf b) (colsOf b) (rowsOf b * colsOf b + 1)
          (b, initSolved b) (startX : Int) (startY : Int))).1 rc.1 rc.2).isMine ||
      (sAt (solveLoop (rowsOf b) (colsOf b) (rowsOf b * colsOf b + 1)
        (2 * (rowsOf b * colsOf b) + 1)
        (revealCell (rowsOf b) (colsOf b) (rowsOf b * colsOf b + 1)
          (b, initSolved b) (startX : Int) (startY : Int))).2 rc.1 rc.2).revealed) =
      (fun rc : Nat × Nat =>
      (cellAt (solveLoop (rowsOf b) (colsOf b) (rowsOf b * colsOf b + 1)
        (2 * (rowsOf b * colsOf b) + 1)
        (revealCell (rowsOf b) (colsOf b) (rowsOf b * colsOf b + 1)
          (b', initSolved b) (startX : Int) (startY : Int))).1 rc.1 rc.2).isMine ||
      (sAt (solveLoop (rowsOf b) (colsOf b) (rowsOf b * colsOf b + 1)
        (2 * (rowsOf b * colsOf b) + 1)
        (revealCell (rowsOf b) (colsOf b) (rowsOf b * colsOf b + 1)
          (b', initSolved b) (startX : Int) (startY : Int))).2 rc.1 rc.2).revealed) := by
    funext rc
    rw [hfstL, hfstR, hsnd, hmine rc.1 rc.2]
  rw [hfun]

/-- Witness for C9 at concrete inputs: a 1 x 1 grid with and without its
flag set gets the same `isSolvable` verdict. -/
theorem c9_witness :
    (eraseFlags [[⟨0, 0, false, false, false, 0⟩]] =
        eraseFlags [[⟨0, 0, false, false, true, 0⟩]]) ∧
      isSolvable [[⟨0, 0, false, false, false, 0⟩]] 0 0 =
        isSolvable [[⟨0, 0, false, false, true, 0⟩]] 0 0 :=
  ⟨by decide, c9_isSolvable_flag_independent _ _ 0 0 (by decide)⟩

theorem lget_map_range {β : Type} (f : Nat → β) (d : β) (n i : Nat) :
    lget d ((List.range n).map f) i = if i < n then f i else d := by
  rw [lget_eq_getElem?, List.getElem?_map]
  by_cases h : i < n
  · rw [if_pos h, List.getElem?_range h]
    rfl
  · rw [if_neg h, List.getElem?_eq_none (by simpa using Nat.le_of_not_lt h)]
    rfl

theorem rowsOf_createEmptyBoard (rows cols : Nat) :
    rowsOf (createEmptyBoard rows cols) = rows := by
  simp [rowsOf, createEmptyBoard]

theorem rowLen_createEmptyBoard (rows cols r : Nat) :
    rowLen (createEmptyBoard rows cols) r = if r < rows then cols else 0 := by
  unfold rowLen createEmptyBoard
  rw [lget_map_range]
  by_cases h : r < rows
  · rw [if_pos h, if_pos h, List.length_map, List.length_range]
  · rw [if_neg h, if_neg h]
    rfl

theorem colsOf_createEmptyBoard (rows cols : Nat) (h : 0 < rows) :
    colsOf (createEmptyBoard rows cols) = cols := by
  have := rowLen_createEmptyBoard rows cols 0
  rw [if_pos h] at this
  exact this

theorem Rect_createEmptyBoard (rows cols : Nat) :
    Rect (createEmptyBoard rows cols) := by
  intro r hr
  rw [rowsOf_createEmptyBoard] at hr
  rw [rowLen_createEmptyBoard, if_pos hr,
    colsOf_createEmptyBoard rows cols (by omega)]

theorem cellAt_createEmptyBoard (rows cols r c : Nat) :
    cellAt (createEmptyBoard rows cols) r c =
      if r < rows ∧ c < cols then ⟨r, c, false, false, false, 0⟩ else defaultCell := by
  unfold cellAt createEmptyBoard
  rw [lget_map_range]
  by_cases hr : r < rows
  · rw [if_pos hr, lget_map_range]
    by_cases hc : c < cols
    · rw [if_pos hc, if_pos ⟨hr, hc⟩]
    · rw [if_neg hc, if_neg (by tauto)]
  · rw [if_neg hr]
    rw [if_neg (by tauto)]
    rfl

theorem cellAt_createEmptyBoard_isMine (rows cols r c : Nat) :
    (cellAt (createEmptyBoard rows cols) r c).isMine = false := by
  rw [cellAt_createEmptyBoard]
  split
  · rfl
  · rfl

theorem cellAt_createEmptyBoard_neighborCount (rows cols r c : Nat) :
    (cellAt (createEmptyBoard rows cols) r c).neighborCount = 0 := by
  rw [cellAt_createEmptyBoard]
  split
  · rfl
  · rfl

theorem rowMajor_nodup (rows cols : Nat) : (rowMajor rows cols).Nodup := by
  unfold rowMajor
  rw [List.nodup_flatMap]
  constructor
  · intro r hr
    exact (List.nodup_range cols).map (fun a b hab => by
      simpa using congrArg Prod.snd hab)
  · apply List.Pairwise.imp ?_ (List.nodup_range rows)
    intro r1 r2 h12
    simp only [Function.onFun, List.disjoint_left]
    intro rc h1 h2
    rw [List.mem_map] at h1 h2
    obtain ⟨c1, _, e1⟩ := h1
    obtain ⟨c2, _, e2⟩ := h2
    apply h12
    have := congrArg Prod.fst (e1.trans e2.symm)
    simpa using this

theorem countP_lset_incr {α : Type} (p : α → Bool) (d : α) (l : List α) (n : Nat)
    (a : α) (hn : n < l.length) (hold : p (lget d l n) = false) (hnew : p a = true) :
    (lset l n a).countP p = l.countP p + 1 := by
  induction l generalizing n with
  | nil => simp at hn
  | cons x l ih =>
    cases n with
    | zero =>
      simp only [lget] at hold
      simp [lset, List.countP_cons, hold, hnew]
    | succ m =>
      simp only [List.length_cons] at hn
      simp only [lget] at hold
      simp [lset, List.countP_cons, ih m (by omega) hold]
      omega

theorem countP_lset_congr {α : Type} (p : α → Bool) (d : α) (l : List α) (n : Nat)
    (a : α) (heq : p a = p (lget d l n)) :
    (lset l n a).countP p = l.countP p := by
  induction l generalizing n with
  | nil => rfl
  | cons x l ih =>
    cases n with
    | zero =>
      simp only [lget] at heq
      simp [lset, List.countP_cons, heq]
    | succ m =>
      simp only [lget] at heq
      simp [lset, List.countP_cons, ih m heq]

theorem countMines_cons (row : List Cell) (rest : Board) :
    countMines (row :: rest) = row.countP (fun c => c.isMine) + countMines rest := by
  simp [countMines]

theorem updCell_cons_zero (row : List Cell) (rest : Board) (c : Nat) (g : Cell → Cell) :
    updCell (row :: rest) 0 c g = lset row c (g (cellAt (row :: rest) 0 c)) :: rest := by
  rfl

theorem updCell_cons_succ (row : List Cell) (rest : Board) (r c : Nat) (g : Cell → Cell) :
    updCell (row :: rest) (r + 1) c g = row :: updCell rest r c g := by
  rfl

theorem countMines_updCell_mine (b : Board) (rx ry : Nat)
    (hr : rx < rowsOf b) (hc : ry < rowLen b rx)
    (hm : (cellAt b rx ry).isMine = false) :
    countMines (updCell b rx ry (fun c => { c with isMine := true })) =
      countMines b + 1 := by
  induction b generalizing rx with
  | nil => simp [rowsOf] at hr
  | cons row rest ih =>
    cases rx with
    | zero =>
      rw [updCell_cons_zero, countMines_cons, countMines_cons]
      have : (lset row ry ((fun c => { c with isMine := true })
          (cellAt (row :: rest) 0 ry))).countP (fun c => c.isMine) =
          row.countP (fun c => c.isMine) + 1 := by
        apply countP_lset_incr _ defaultCell _ _ _ hc
        · exact hm
        · rfl
      rw [this]
      omega
    | succ m =>
      rw [updCell_cons_succ, countMines_cons, countMines_cons]
      have hr' : m < rowsOf rest := by
        simp only [rowsOf, List.length_cons] at hr ⊢
        omega
      rw [ih m hr' hc hm]
      omega

theorem countMines_updCell_congr (b : Board) (rx ry : Nat) (g : Cell → Cell)
    (hg : ∀ cl, (g cl).isMine = cl.isMine) :
    countMines (updCell b rx ry g) = countMines b := by
  induction b generalizing rx with
  | nil => rfl
  | cons row rest ih =>
    cases rx with
    | zero =>
      rw [updCell_cons_zero, countMines_cons, countMines_cons]
      rw [countP_lset_congr _ defaultCell _ _ _ (by simp [hg, cellAt, lget])]
    | succ m =>
      rw [updCell_cons_succ, countMines_cons, countMines_cons, ih m]

theorem countMines_createEmptyBoard (rows cols : Nat) :
    countMines (createEmptyBoard rows cols) = 0 := by
  unfold countMines createEmptyBoard
  induction rows with
  | zero => rfl
  | succ n ih =>
    rw [List.range_succ, List.map_append, List.map_append, List.sum_append]
    simp only [List.map_cons, List.map_nil, List.sum_cons, List.sum_nil]
    rw [ih]
    simp [List.countP_eq_zero]

theorem cellAt_isMine_updCell_congr (b : Board) (rx ry : Nat) (g : Cell → Cell)
    (hg : ∀ cl, (g cl).isMine = cl.isMine) (r c : Nat) :
    (cellAt (updCell b rx ry g) r c).isMine = (cellAt b r c).isMine := by
  rw [cellAt_updCell]
  split
  · rename_i hcond
    rw [hg]
    rw [hcond.1, hcond.2.1]
  · rfl

theorem placeMines_dims (rows cols mines sx sy : Nat) (rng : Nat → Nat × Nat) :
    ∀ (fuel : Nat) (b : Board) (placed k : Nat) (b2 : Board) (k2 : Nat),
    placeMines rows cols mines sx sy rng fuel b placed k = some (b2, k2) →
    rowsOf b2 = rowsOf b ∧ ∀ r, rowLen b2 r = rowLen b r := by
  intro fuel
  induction fuel with
  | zero =>
    intro b placed k b2 k2 h
    simp only [placeMines] at h
    split_ifs at h
    simp only [Option.some.injEq, Prod.mk.injEq] at h
    rw [← h.1]
    exact ⟨rfl, fun r => rfl⟩
  | succ f ih =>
    intro b placed k b2 k2 h
    simp only [placeMines] at h
    split_ifs at h with hd hplace
    · simp only [Option.some.injEq, Prod.mk.injEq] at h
      rw [← h.1]
      exact ⟨rfl, fun r => rfl⟩
    · obtain ⟨h1, h2⟩ := ih _ _ _ _ _ h
      constructor
      · rw [h1, rowsOf_updCell]
      · intro r
        rw [h2 r, rowLen_updCell]
    · exact ih _ _ _ _ _ h

theorem placeMines_mineFar (rows cols mines sx sy : Nat) (rng : Nat → Nat × Nat) :
    ∀ (fuel : Nat) (b : Board) (placed k : Nat) (b2 : Board) (k2 : Nat),
    (∀ r c, (cellAt b r c).isMine = true →
      ¬(((r : Int) - (sx : Int)).natAbs ≤ 1 ∧ ((c : Int) - (sy : Int)).natAbs ≤ 1)) →
    placeMines rows cols mines sx sy rng fuel b placed k = some (b2, k2) →
    ∀ r c, (cellAt b2 r c).isMine = true →
      ¬(((r : Int) - (sx : Int)).natAbs ≤ 1 ∧ ((c : Int) - (sy : Int)).natAbs ≤ 1) := by
  intro fuel
  induction fuel with
  | zero =>
    intro b placed k b2 k2 hinv h
    simp only [placeMines] at h
    split_ifs at h
    simp only [Option.some.injEq, Prod.mk.injEq] at h
    rw [← h.1]
    exact hinv
  | succ f ih =>
    intro b placed k b2 k2 hinv h
    simp only [placeMines] at h
    split_ifs at h with hd hplace
    · simp only [Option.some.injEq, Prod.mk.injEq] at h
      rw [← h.1]
      exact hinv
    · refine ih _ _ _ _ _ ?_ h
      intro r c hm
      rw [cellAt_updCell] at hm
      revert hm
      split
      · rename_i hcond
        intro hm
        rw [hcond.1, hcond.2.1]
        exact hplace.2
      · intro hm
        exact hinv r c hm
    · exact ih _ _ _ _ _ hinv h

theorem placeMines_count (rows cols mines sx sy : Nat) (rng : Nat → Nat × Nat)
    (hrows : 0 < rows) (hcols : 0 < cols) :
    ∀ (fuel : Nat) (b : Board) (placed k : Nat) (b2 : Board) (k2 : Nat),
    rowsOf b = rows → (∀ r, r < rows → rowLen b r = cols) →
    countMines b = placed → placed ≤ mines →
    placeMines rows cols mines sx sy rng fuel b placed k = some (b2, k2) →
    countMines b2 = mines := by
  intro fuel
  induction fuel with
  | zero =>
    intro b placed k b2 k2 hd1 hd2 hcm hle h
    simp only [placeMines] at h
    split_ifs at h with hdone
    simp only [Option.some.injEq, Prod.mk.injEq] at h
    rw [← h.1, hcm]
    omega
  | succ f ih =>
    intro b placed k b2 k2 hd1 hd2 hcm hle h
    simp only [placeMines] at h
    split_ifs at h with hdone hplace
    · simp only [Option.some.injEq, Prod.mk.injEq] at h
      rw [← h.1, hcm]
      omega
    · have hrx : (rng k).1 % rows < rows := Nat.mod_lt _ hrows
      have hry : (rng k).2 % cols < cols := Nat.mod_lt _ hcols
      refine ih _ _ _ _ _ ?_ ?_ ?_ ?_ h
      · rw [rowsOf_updCell, hd1]
      · intro r hr
        rw [rowLen_updCell]
        exact hd2 r hr
      · rw [countMines_updCell_mine _ _ _ (by rw [hd1]; exact hrx)
          (by rw [hd2 _ hrx]; exact hry) hplace.1, hcm]
      · omega
    · exact ih _ _ _ _ _ hd1 hd2 hcm hle h

theorem computeCounts_isMine (b : Board) (r c : Nat) :
    (cellAt (computeCounts b) r c).isMine = (cellAt b r c).isMine := by
  simp only [computeCounts]
  refine foldl_preserves
    (fun acc : Board => ∀ r' c', (cellAt acc r' c').isMine = (cellAt b r' c').isMine)
    _ (rowMajor (rowsOf b) (colsOf b)) ?_ b (fun _ _ => rfl) r c
  intro a rc _ ha r' c'
  split
  · exact ha r' c'
  · rw [cellAt_isMine_updCell_congr _ _ _ _ (by intro cl; rfl)]
    exact ha r' c'

theorem countMines_computeCounts (b : Board) :
    countMines (computeCounts b) = countMines b := by
  simp only [computeCounts]
  refine foldl_preserves (fun acc : Board => countMines acc = countMines b)
    _ (rowMajor (rowsOf b) (colsOf b)) ?_ b rfl
  intro a rc _ ha
  split
  · exact ha
  · rw [countMines_updCell_congr _ _ _ _ (by intro cl; rfl)]
    exact ha

theorem mineCountAt_congr (a a' : Board)
    (hm : ∀ r c, (cellAt a r c).isMine = (cellAt a' r c).isMine)
    (r c rows cols : Nat) :
    mineCountAt a r c rows cols = mineCountAt a' r c rows cols := by
  unfold mineCountAt
  congr 1
  apply List.filter_congr
  intro ij _
  simp only [hm]

theorem computeCounts_untouched (rows cols : Nat) :
    ∀ (l : List (Nat × Nat)) (acc : Board) (r c : Nat), (r, c) ∉ l →
    cellAt (l.foldl (fun acc rc =>
      if (cellAt acc rc.1 rc.2).isMine then acc
      else updCell acc rc.1 rc.2
        (fun cl => { cl with neighborCount := mineCountAt acc rc.1 rc.2 rows cols }))
      acc) r c = cellAt acc r c := by
  intro l
  induction l with
  | nil => intro acc r c _; rfl
  | cons rc0 l ih =>
    intro acc r c h
    rw [List.mem_cons, not_or] at h
    rw [List.foldl_cons, ih _ r c h.2]
    split
    · rfl
    · apply cellAt_updCell_ne
      by_cases hr : r = rc0.1
      · right
        intro hc
        exact h.1 (by rw [hr, hc])
      · exact Or.inl hr

theorem computeCounts_fold (b0 : Board) (rows cols : Nat) :
    ∀ (l : List (Nat × Nat)) (acc : Board), l.Nodup →
    rowsOf acc = rows → (∀ r, r < rows → rowLen acc r = cols) →
    (∀ r c, (cellAt acc r c).isMine = (cellAt b0 r c).isMine) →
    ∀ rc ∈ l, rc.1 < rows → rc.2 < cols → (cellAt b0 rc.1 rc.2).isMine = false →
    (cellAt (l.foldl (fun acc rc =>
      if (cellAt acc rc.1 rc.2).isMine then acc
      else updCell acc rc.1 rc.2
        (fun cl => { cl with neighborCount := mineCountAt acc rc.1 rc.2 rows cols }))
      acc) rc.1 rc.2).neighborCount = mineCountAt b0 rc.1 rc.2 rows cols := by
  intro l
  induction l with
  | nil => intro acc _ _ _ _ rc hmem; simp at hmem
  | cons rc0 l ih =>
    intro acc hnd hd1 hd2 hM rc hmem hr hc hmine
    rw [List.foldl_cons]
    rcases List.mem_cons.mp hmem with heq | hmem'
    · subst heq
      have hnotin : rc ∉ l := (List.nodup_cons.mp hnd).1
      rw [computeCounts_untouched rows cols l _ rc.1 rc.2 (by
        intro hcon
        exact hnotin (by simpa using hcon))]
      rw [if_neg (by rw [hM rc.1 rc.2, hmine]; simp)]
      rw [cellAt_updCell_self _ _ _ _ (by rw [hd1]; exact hr)
        (by rw [hd2 rc.1 hr]; exact hc)]
      exact mineCountAt_congr _ _ hM rc.1 rc.2 rows cols
    · apply ih _ (List.nodup_cons.mp hnd).2 ?_ ?_ ?_ rc hmem' hr hc hmine
      · split
        · exact hd1
        · rw [rowsOf_updCell]; exact hd1
      · intro r hrr
        split
        · exact hd2 r hrr
        · rw [rowLen_updCell]; exact hd2 r hrr
      · intro r' c'
        split
        · exact hM r' c'
        · rw [cellAt_isMine_updCell_congr _ _ _ _ (by intro cl; rfl)]
          exact hM r' c'

theorem computeCounts_correct (b : Board) (hrect : Rect b) (r c : Nat)
    (hr : r < rowsOf b) (hc : c < colsOf b)
    (hm : (cellAt b r c).isMine = false) :
    (cellAt (computeCounts b) r c).neighborCount =
      mineCountAt b r c (rowsOf b) (colsOf b) := by
  simp only [computeCounts]
  exact computeCounts_fold b (rowsOf b) (colsOf b) (rowMajor (rowsOf b) (colsOf b))
    b (rowMajor_nodup _ _) rfl (fun r' hr' => hrect r' hr') (fun _ _ => rfl)
    (r, c) ((mem_rowMajor _ _ _).mpr ⟨hr, hc⟩) hr hc hm

theorem mineCountAt_eq_specNeighborMines (b : Board) (r c rows cols : Nat)
    (hr : r < rows) (hc : c < cols) (hm : (cellAt b r c).isMine = false) :
    mineCountAt b r c rows cols = specNeighborMines b r c rows cols := by
  unfold mineCountAt specNeighborMines getNeighbors
  generalize offs9 = l
  induction l with
  | nil => rfl
  | cons ij l ih =>
    obtain ⟨i, j⟩ := ij
    rw [List.filter_cons, List.filterMap_cons]
    by_cases hcen : i = 0 ∧ j = 0
    · obtain ⟨hi, hj⟩ := hcen
      subst hi; subst hj
      have hneg : ¬(0 ≤ (r : Int) + (0 : Int) ∧ (r : Int) + (0 : Int) < (rows : Int) ∧
          0 ≤ (c : Int) + (0 : Int) ∧ (c : Int) + (0 : Int) < (cols : Int) ∧
          ¬((0 : Int) = 0 ∧ (0 : Int) = 0)) := by
        intro hcon
        exact hcon.2.2.2.2 ⟨rfl, rfl⟩
      have hcf : (decide (0 ≤ (r : Int) + (0 : Int) ∧ (r : Int) + (0 : Int) < (rows : Int) ∧
          0 ≤ (c : Int) + (0 : Int) ∧ (c : Int) + (0 : Int) < (cols : Int)) &&
          (cellAt b ((r : Int) + (0 : Int)).toNat ((c : Int) + (0 : Int)).toNat).isMine)
          = false := by
        have h1 : ((r : Int) + (0 : Int)).toNat = r := by simp
        have h2 : ((c : Int) + (0 : Int)).toNat = c := by simp
        rw [h1, h2, hm, Bool.and_false]
      simp only [if_neg hneg]
      simpa [hm] using ih
    · by_cases hbnd : 0 ≤ (r : Int) + i ∧ (r : Int) + i < (rows : Int) ∧
          0 ≤ (c : Int) + j ∧ (c : Int) + j < (cols : Int)
      · have hpos : 0 ≤ (r : Int) + i ∧ (r : Int) + i < (rows : Int) ∧
            0 ≤ (c : Int) + j ∧ (c : Int) + j < (cols : Int) ∧ ¬(i = 0 ∧ j = 0) :=
          ⟨hbnd.1, hbnd.2.1, hbnd.2.2.1, hbnd.2.2.2, hcen⟩
        have hdec : decide (0 ≤ (r : Int) + i ∧ (r : Int) + i < (rows : Int) ∧
            0 ≤ (c : Int) + j ∧ (c : Int) + j < (cols : Int)) = true :=
          decide_eq_true hbnd
        simp only [if_pos hpos, hdec, Bool.true_and, List.filter_cons]
        by_cases hmine : (cellAt b ((r : Int) + i).toNat ((c : Int) + j).toNat).isMine = true
        · simpa [hmine] using ih
        · simp only [Bool.not_eq_true] at hmine
          simpa [hmine] using ih
      · have hneg : ¬(0 ≤ (r : Int) + i ∧ (r : Int) + i < (rows : Int) ∧
            0 ≤ (c : Int) + j ∧ (c : Int) + j < (cols : Int) ∧ ¬(i = 0 ∧ j = 0)) := by
          tauto
        have hdec : decide (0 ≤ (r : Int) + i ∧ (r : Int) + i < (rows : Int) ∧
            0 ≤ (c : Int) + j ∧ (c : Int) + j < (cols : Int)) = false :=
          decide_eq_false hbnd
        simp only [if_neg hneg, hdec, Bool.false_and]
        simpa using ih

theorem genLoop_sound (rows cols mines sx sy : Nat) (rng : Nat → Nat × Nat)
    (pfuel : Nat) : ∀ (n k used : Nat) (g : Board) (a : Nat),
    genLoop rows cols mines sx sy rng pfuel n k used = some (g, a) →
    isSolvable g sx sy = true ∨ (g = createEmptyBoard rows cols ∧ a = used + n) := by
  intro n
  induction n with
  | zero =>
    intro k used g a h
    simp only [genLoop, Option.some.injEq, Prod.mk.injEq] at h
    right
    exact ⟨h.1.symm, by omega⟩
  | succ n ih =>
    intro k used g a h
    simp only [genLoop] at h
    cases hA : attemptOnce rows cols mines sx sy rng pfuel k with
    | none => rw [hA] at h; simp at h
    | some bk =>
      obtain ⟨b2, k'⟩ := bk
      rw [hA] at h
      dsimp only at h
      by_cases hs : isSolvable b2 sx sy = true
      · rw [if_pos hs] at h
        simp only [Option.some.injEq, Prod.mk.injEq] at h
        left
        rw [← h.1]
        exact hs
      · rw [if_neg hs] at h
        rcases ih k' (used + 1) g a h with hl | hrr
        · exact Or.inl hl
        · exact Or.inr ⟨hrr.1, by omega⟩

theorem genLoop_shape (rows cols mines sx sy : Nat) (rng : Nat → Nat × Nat)
    (pfuel : Nat) : ∀ (n k used : Nat) (g : Board) (a : Nat),
    genLoop rows cols mines sx sy rng pfuel n k used = some (g, a) →
    g = createEmptyBoard rows cols ∨
      ∃ (pb : Board) (k0 k1 : Nat),
        placeMines rows cols mines sx sy rng pfuel
          (createEmptyBoard rows cols) 0 k0 = some (pb, k1) ∧
        g = computeCounts pb := by
  intro n
  induction n with
  | zero =>
    intro k used g a h
    simp only [genLoop, Option.some.injEq, Prod.mk.injEq] at h
    exact Or.inl h.1.symm
  | succ n ih =>
    intro k used g a h
    simp only [genLoop] at h
    cases hA : attemptOnce rows cols mines sx sy rng pfuel k with
    | none => rw [hA] at h; simp at h
    | some bk =>
      obtain ⟨b2, k'⟩ := bk
      rw [hA] at h
      dsimp only at h
      unfold attemptOnce at hA
      cases hp : placeMines rows cols mines sx sy rng pfuel
          (createEmptyBoard rows cols) 0 k with
      | none => rw [hp] at hA; simp at hA
      | some pbk =>
        obtain ⟨pb, k1⟩ := pbk
        rw [hp] at hA
        dsimp only at hA
        simp only [Option.some.injEq, Prod.mk.injEq] at hA
        by_cases hs : isSolvable b2 sx sy = true
        · rw [if_pos hs] at h
          simp only [Option.some.injEq, Prod.mk.injEq] at h
          refine Or.inr ⟨pb, k, k1, hp, ?_⟩
          rw [← h.1, ← hA.1]
        · rw [if_neg hs] at h
          exact ih k' (used + 1) g a h

/-- C10: every completed run of `generateGuaranteedBoard` returns a grid
with exactly `mines` mine cells (a validated attempt) or exactly zero mine
cells (the empty fallback); no other total mine count is possible. -/
theorem c10_generated_mine_count (rows cols mines sx sy : Nat)
    (rng : Nat → Nat × Nat) (pfuel : Nat) (g : Board) (a : Nat)
    (hrows : 0 < rows) (hcols : 0 < cols)
    (h : generateGuaranteedBoard rows cols mines sx sy rng pfuel = some (g, a)) :
    countMines g = mines ∨ countMines g = 0 := by
  rcases genLoop_shape rows cols mines sx sy rng pfuel 500 0 0 g a h with
    he | ⟨pb, k0, k1, hp, hg⟩
  · right
    rw [he]
    exact countMines_createEmptyBoard rows cols
  · left
    rw [hg, countMines_computeCounts]
    refine placeMines_count rows cols mines sx sy rng hrows hcols pfuel _ 0 k0 pb k1
      (rowsOf_createEmptyBoard rows cols) ?_
      (countMines_createEmptyBoard rows cols) (Nat.zero_le _) hp
    intro r hr
    rw [rowLen_createEmptyBoard, if_pos hr]

set_option maxRecDepth 1000000 in
/-- Witness for C10 at a concrete input: the 1 x 11 example generation
(one mine requested, one mine placed). -/
theorem c10_witness :
    (0 < 1 ∧ 0 < 11 ∧
        generateGuaranteedBoard 1 11 1 0 0 rngEx 2 = some (genExB, 1)) ∧
      (countMines genExB = 1 ∨ countMines genExB = 0) :=
  ⟨⟨by decide, by decide, by decide⟩,
    c10_generated_mine_count 1 11 1 0 0 rngEx 2 genExB 1 (by decide) (by decide)
      (by decide)⟩

/-- C2: every mine in a grid returned by `generateGuaranteedBoard` lies at
Chebyshev distance strictly greater than 1 from the start coordinate (the
empty fallback has no mines, so it satisfies this vacuously). -/
theorem c2_generated_mines_far (rows cols mines sx sy : Nat)
    (rng : Nat → Nat × Nat) (pfuel : Nat) (g : Board) (a : Nat)
    (hrows : 0 < rows) (hcols : 0 < cols) (hsx : sx < rows) (hsy : sy < cols)
    (hmv : mines + 9 < rows * cols)
    (h : generateGuaranteedBoard rows cols mines sx sy rng pfuel = some (g, a)) :
    ∀ r c, (cellAt g r c).isMine = true → 1 < chebDist r c sx sy := by
  intro r c hm
  rcases genLoop_shape rows cols mines sx sy rng pfuel 500 0 0 g a h with
    he | ⟨pb, k0, k1, hp, hg⟩
  · rw [he, cellAt_createEmptyBoard_isMine] at hm
    exact absurd hm (by simp)
  · rw [hg, computeCounts_isMine] at hm
    have hfar := placeMines_mineFar rows cols mines sx sy rng pfuel _ 0 k0 pb k1
      (fun r' c' hm' => by
        rw [cellAt_createEmptyBoard_isMine] at hm'
        exact absurd hm' (by simp)) hp r c hm
    unfold chebDist
    rw [lt_max_iff]
    omega

set_option maxRecDepth 1000000 in
/-- Witness for C2 at a concrete input: the 1 x 11 example generation,
whose single mine at (0, 10) is far from the start (0, 0). -/
theorem c2_witness :
    (0 < 1 ∧ 0 < 11 ∧ 0 < 1 ∧ 0 < 11 ∧ 1 + 9 < 1 * 11 ∧
        generateGuaranteedBoard 1 11 1 0 0 rngEx 2 = some (genExB, 1)) ∧
      (∀ r c, (cellAt genExB r c).isMine = true → 1 < chebDist r c 0 0) :=
  ⟨⟨by decide, by decide, by decide, by decide, by decide, by decide⟩,
    c2_generated_mines_far 1 11 1 0 0 rngEx 2 genExB 1 (by decide) (by decide)
      (by decide) (by decide) (by decide) (by decide)⟩

/-- C3: in every grid returned by `generateGuaranteedBoard`, every
non-mine cell's `neighborCount` equals the exact number of mines among its
in-bounds Moore neighbors (excluding itself). -/
theorem c3_generated_counts_correct (rows cols mines sx sy : Nat)
    (rng : Nat → Nat × Nat) (pfuel : Nat) (g : Board) (a : Nat)
    (hrows : 0 < rows) (hcols : 0 < cols) (hsx : sx < rows) (hsy : sy < cols)
    (hmv : mines + 9 < rows * cols)
    (h : generateGuaranteedBoard rows cols mines sx sy rng pfuel = some (g, a)) :
    ∀ r c, r < rows → c < cols → (cellAt g r c).isMine = false →
      (cellAt g r c).neighborCount = specNeighborMines g r c rows cols := by
  intro r c hr hc hm
  rcases genLoop_shape rows cols mines sx sy rng pfuel 500 0 0 g a h with
    he | ⟨pb, k0, k1, hp, hg⟩
  · rw [he, cellAt_createEmptyBoard_neighborCount]
    have hnil : (getNeighbors r c rows cols).filter
        (fun n => (cellAt (createEmptyBoard rows cols) n.1 n.2).isMine) = [] := by
      rw [List.filter_eq_nil_iff]
      intro n _
      rw [cellAt_createEmptyBoard_isMine]
      simp
    unfold specNeighborMines
    rw [hnil]
    rfl
  · have hdims := placeMines_dims rows cols mines sx sy rng pfuel _ 0 k0 pb k1 hp
    have hrowsPb : rowsOf pb = rows := by
      rw [hdims.1, rowsOf_createEmptyBoard]
    have hcolsPb : colsOf pb = cols := by
      have h0 := hdims.2 0
      rw [rowLen_createEmptyBoard, if_pos hrows] at h0
      exact h0
    have hrectPb : Rect pb := by
      intro r' hr'
      have := hdims.2 r'
      rw [rowLen_createEmptyBoard, if_pos (by rw [hrowsPb] at hr'; exact hr')] at this
      rw [this, hcolsPb]
    have hmPb : (cellAt pb r c).isMine = false := by
      rw [hg, computeCounts_isMine] at hm
      exact hm
    rw [hg]
    rw [computeCounts_correct pb hrectPb r c (by rw [hrowsPb]; exact hr)
      (by rw [hcolsPb]; exact hc) hmPb]
    rw [hrowsPb, hcolsPb]
    rw [mineCountAt_eq_specNeighborMines pb r c rows cols hr hc hmPb]
    unfold specNeighborMines
    congr 1
    apply List.filter_congr
    intro n _
    rw [computeCounts_isMine]

set_option maxRecDepth 1000000 in
/-- Witness for C3 at a concrete input: the 1 x 11 example generation,
checked at the non-mine cell (0, 9) next to the mine. -/
theorem c3_witness :
    (0 < 1 ∧ 0 < 11 ∧ 0 < 1 ∧ 0 < 11 ∧ 1 + 9 < 1 * 11 ∧
        generateGuaranteedBoard 1 11 1 0 0 rngEx 2 = some (genExB, 1)) ∧
      (∀ r c, r < 1 → c < 11 → (cellAt genExB r c).isMine = false →
        (cellAt genExB r c).neighborCount = specNeighborMines genExB r c 1 11) :=
  ⟨⟨by decide, by decide, by decide, by decide, by decide, by decide⟩,
    c3_generated_counts_correct 1 11 1 0 0 rngEx 2 genExB 1 (by decide) (by decide)
      (by decide) (by decide) (by decide) (by decide)⟩

/-- C1: (i) every completed run of `generateGuaranteedBoard` with valid
parameters returns a grid that passes `isSolvable` at the start cell, or
the all-default empty fallback together with an attempt count of exactly
500 (the fallback is reached only after 500 failed attempts, each counted
by the `attempts` variable); (ii) early exit: from any loop state, an
attempt whose candidate passes `isSolvable` is returned immediately, with
exactly one more attempt counted and no further attempts made. -/
theorem c1_generateGuaranteedBoard_solvable :
    (∀ (rows cols mines sx sy : Nat) (rng : Nat → Nat × Nat) (pfuel : Nat)
      (g : Board) (a : Nat),
      0 < rows → 0 < cols → sx < rows → sy < cols → mines + 9 < rows * cols →
      generateGuaranteedBoard rows cols mines sx sy rng pfuel = some (g, a) →
      isSolvable g sx sy = true ∨ (g = createEmptyBoard rows cols ∧ a = 500)) ∧
    (∀ (rows cols mines sx sy : Nat) (rng : Nat → Nat × Nat) (pfuel : Nat)
      (n k used : Nat) (b2 : Board) (k' : Nat),
      attemptOnce rows cols mines sx sy rng pfuel k = some (b2, k') →
      isSolvable b2 sx sy = true →
      genLoop rows cols mines sx sy rng pfuel (n + 1) k used = some (b2, used + 1)) := by
  constructor
  · intro rows cols mines sx sy rng pfuel g a h1 h2 h3 h4 h5 h
    rcases genLoop_sound rows cols mines sx sy rng pfuel 500 0 0 g a h with hl | hrr
    · exact Or.inl hl
    · exact Or.inr ⟨hrr.1, by omega⟩
  · intro rows cols mines sx sy rng pfuel n k used b2 k' hA hs
    simp only [genLoop]
    rw [hA]
    dsimp only
    rw [if_pos hs]

set_option maxRecDepth 1000000 in
/-- Witness for C1 at a concrete input: the 1 x 11 example generation
returns a solvable grid on its first attempt. -/
theorem c1_witness :
    (0 < 1 ∧ 0 < 11 ∧ 0 < 1 ∧ 0 < 11 ∧ 1 + 9 < 1 * 11 ∧
        generateGuaranteedBoard 1 11 1 0 0 rngEx 2 = some (genExB, 1)) ∧
      (isSolvable genExB 0 0 = true ∨ (genExB = createEmptyBoard 1 11 ∧ 1 = 500)) :=
  ⟨⟨by decide, by decide, by decide, by decide, by decide, by decide⟩,
    c1_generateGuaranteedBoard_solvable.1 1 11 1 0 0 rngEx 2 genExB 1 (by decide)
      (by decide) (by decide) (by decide) (by decide) (by decide)⟩
